import Mathlib

/-!
Verification of the parameter-sweep DBSCAN clustering-quality pipeline
(`pipeline/prototype_secondary_dbscan.py`).

Python dictionaries are modelled as insertion-ordered association lists:
`dictSet` updates an existing key in place (keeping its position) and
appends a fresh key at the end, matching CPython (3.7+) dict semantics.
Floating-point values (completeness, purity, weighted averages, eps) are
modelled as exact rationals.
-/

namespace Autometa

/-- Lookup in an association list: first binding of the key wins. -/
def dictGet {κ β : Type} [DecidableEq κ] : List (κ × β) → κ → Option β
  | [], _ => none
  | (k, v) :: rest, key => if k = key then some v else dictGet rest key

/-- Lookup with a default value. -/
def dictGetD {κ β : Type} [DecidableEq κ] (d : List (κ × β)) (key : κ) (dflt : β) : β :=
  (dictGet d key).getD dflt

/-- Python `key in dict`. -/
def dictContains {κ β : Type} [DecidableEq κ] (d : List (κ × β)) (key : κ) : Bool :=
  (dictGet d key).isSome

/-- Python `d[key] = v`: update in place if the key exists, else append. -/
def dictSet {κ β : Type} [DecidableEq κ] : List (κ × β) → κ → β → List (κ × β)
  | [], k, v => [(k, v)]
  | (k0, v0) :: rest, k, v =>
      if k0 = k then (k, v) :: rest else (k0, v0) :: dictSet rest k v

/-- Keys of an association list, in order. -/
def dictKeys {κ β : Type} (d : List (κ × β)) : List κ :=
  d.map Prod.fst

/-- One row of the vizbin/DBSCAN data table.  Only the columns the core
pipeline reads are modelled. -/
structure Row where
  contig : String
  db_cluster : Int
  length : Nat
  gc : ℚ
  cov : ℚ
deriving DecidableEq, Repr

/-- The per-contig marker profile: contig identifier to marker counts
(`contig_markers` / `hmm_dictionary` in the script). -/
abbrev HmmDict := List (String × List (String × Nat))

/-- One row of `countClusters` (lines 55-60). -/
def countStep (clusters : List (Int × Nat)) (r : Row) : List (Int × Nat) :=
  if dictContains clusters r.db_cluster then
    dictSet clusters r.db_cluster (dictGetD clusters r.db_cluster 0 + 1)
  else
    dictSet clusters r.db_cluster 1

/-- `countClusters`: build a dict counting rows per cluster label, return the
number of keys (= number of distinct labels in the table). -/
def countClusters (t : List Row) : Nat :=
  (t.foldl countStep []).length

/-- The expected single-copy marker count: 139 default (bacteria), 162 for
archaea (`getClusterInfo` lines 81-83). -/
def expectedNumber (life_domain : String) : Nat :=
  if life_domain = "archaea" then 162 else 139

/-- `getClusterInfo` lines 75-79: fold one contig's pfam counts into a
cluster's marker-totals dict. -/
def addMarkers (ms : List (String × Nat)) (pf : List (String × Nat)) : List (String × Nat) :=
  pf.foldl (fun cur p =>
    if dictContains cur p.1 then dictSet cur p.1 (dictGetD cur p.1 0 + p.2)
    else dictSet cur p.1 p.2) ms

/-- `getClusterInfo` lines 66-79, one row: ensure the row's cluster has an
entry, then (when the contig is in the profile) add its markers. -/
def markerStep (hmm : HmmDict) (mt : List (Int × List (String × Nat))) (r : Row) :
    List (Int × List (String × Nat)) :=
  let mt1 := if dictContains mt r.db_cluster then mt else dictSet mt r.db_cluster []
  match dictGet hmm r.contig with
  | none => mt1
  | some pf => dictSet mt1 r.db_cluster (addMarkers (dictGetD mt1 r.db_cluster []) pf)

/-- `marker_totals` after the first loop of `getClusterInfo`. -/
def buildMarkerTotals (t : List Row) (hmm : HmmDict) : List (Int × List (String × Nat)) :=
  t.foldl (markerStep hmm) []

/-- `getClusterInfo` lines 88-94: (completeness, purity) of one cluster's
marker totals, as exact rationals. -/
def scoreMarkers (ms : List (String × Nat)) (life_domain : String) : ℚ × ℚ :=
  let total_markers := ms.length
  let total_unique := (ms.filter (fun m => m.2 = 1)).length
  (((total_markers : ℚ) / (expectedNumber life_domain : ℚ)) * 100,
   ((total_unique : ℚ) / (expectedNumber life_domain : ℚ)) * 100)

/-- `getClusterInfo` lines 85-97: per cluster label, (completeness, purity)
as exact rationals. -/
def getClusterInfo (t : List Row) (hmm : HmmDict) (life_domain : String) :
    List (Int × ℚ × ℚ) :=
  (buildMarkerTotals t hmm).map (fun c => (c.1, scoreMarkers c.2 life_domain))

/-- (length, gc, cov) for one contig. -/
abbrev ContigData := Nat × ℚ × ℚ

/-- One row of `getClusterSummaryInfo` lines 101-105. -/
def ccStep (d : List (Int × List (String × ContigData))) (r : Row) :
    List (Int × List (String × ContigData)) :=
  if dictContains d r.db_cluster then
    dictSet d r.db_cluster
      (dictSet (dictGetD d r.db_cluster []) r.contig (r.length, r.gc, r.cov))
  else
    dictSet d r.db_cluster [(r.contig, (r.length, r.gc, r.cov))]

/-- `getClusterSummaryInfo` lines 100-105: dict of dicts keyed by cluster
then by contig; a repeated (cluster, contig) pair overwrites in place. -/
def buildClusterContigInfo (t : List Row) : List (Int × List (String × ContigData)) :=
  t.foldl ccStep []

/-- Lines 117-130: insert a new length directly before the first strictly
smaller stored length, else append at the end. -/
def insertLengthAux (len : Nat) : List Nat → List Nat
  | [] => [len]
  | x :: rest => if x < len then len :: x :: rest else x :: insertLengthAux len rest

/-- Lines 111-130: the descending contig-length list for one cluster, built
by repeated sorted insertion over the contig dict in order. -/
def clusterSorted (info : List (String × ContigData)) : List Nat :=
  info.foldl (fun acc c => insertLengthAux c.2.1 acc) []

/-- Line 116: the cluster's total length. -/
def clusterTotalLength (info : List (String × ContigData)) : Nat :=
  info.foldl (fun acc c => acc + c.2.1) 0

/-- Lines 134-141: the running-sum N50 loop.  The float test
`running_total >= total/2` is the exact test `2 * running_total >= total`. -/
def n50Go (total : Nat) : Nat → List Nat → Option Nat
  | _, [] => none
  | running, x :: rest =>
      if total ≤ 2 * (running + x) then some x else n50Go total (running + x) rest

/-- N50 of a (descending) length list with the given total. -/
def n50 (lengths : List Nat) (total : Nat) : Option Nat := n50Go total 0 lengths

/-- One cluster's summary record (line 166). -/
structure ClusterSummary where
  size : Nat
  longest_contig : Nat
  n50 : Option Nat
  number_contigs : Nat
  cov : ℚ
  gc_percent : ℚ
deriving DecidableEq, Repr

/-- Lines 108-166 for one cluster: sorted lengths, N50 and the
length-fraction-weighted gc and coverage averages. -/
def summarizeCluster (info : List (String × ContigData)) : ClusterSummary :=
  let sorted := clusterSorted info
  let total := clusterTotalLength info
  { size := total
    longest_contig := sorted.headD 0
    n50 := n50 sorted total
    number_contigs := sorted.length
    cov := info.foldl (fun acc c => acc + c.2.2.2 * ((c.2.1 : ℚ) / (total : ℚ))) 0
    gc_percent := info.foldl (fun acc c => acc + c.2.2.1 * ((c.2.1 : ℚ) / (total : ℚ))) 0 }

/-- `getClusterSummaryInfo`: summary record per cluster label. -/
def getClusterSummaryInfo (t : List Row) : List (Int × ClusterSummary) :=
  (buildClusterContigInfo t).map (fun c => (c.1, summarizeCluster c.2))

/-- Lines 216-228: the eps sweep.  The external DBSCAN primitive is a
parameter; `fuel` bounds the iterations (the Python loop has no bound and
may in principle run forever, which is modelled by returning `none`). -/
def sweepGo (prim : ℚ → List Row) : Nat → ℚ → List (ℚ × List Row) →
    Option (List (ℚ × List Row))
  | 0, _, _ => none
  | fuel + 1, eps, tables =>
      let out := prim eps
      let tables1 := dictSet tables eps out
      if 1 < countClusters out then sweepGo prim fuel (eps + 1/10) tables1
      else some tables1

/-- The sweep starting at eps = 0.3, with empty table collection. -/
def sweep (prim : ℚ → List Row) (fuel : Nat) : Option (List (ℚ × List Row)) :=
  sweepGo prim fuel (3/10) []

/-- Lines 242-253: number of clusters with completeness and purity strictly
above the cutoffs. -/
def numberCAP (info : List (Int × ℚ × ℚ)) (ccut pcut : ℚ) : Nat :=
  info.foldl (fun acc c => if ccut < c.2.1 ∧ pcut < c.2.2 then acc + 1 else acc) 0

/-- Stable descending insertion by key: an element is placed after every
element with a key at least as large.  Folding this from the right gives a
stable descending sort, which is what Python `sorted(..., reverse=True)`
guarantees. -/
def insertDescBy {α : Type} (key : α → Nat) (a : α) : List α → List α
  | [] => [a]
  | b :: rest => if key a < key b then b :: insertDescBy key a rest else a :: b :: rest

/-- Stable descending sort by key. -/
def sortedDescBy {α : Type} (key : α → Nat) (l : List α) : List α :=
  l.foldr (insertDescBy key) []

/-- Lines 256-257: the chosen eps, the head of the stable descending sort
of the (eps, complete-and-pure count) pairs in sweep (dict) order. -/
def bestEps (counts : List (ℚ × Nat)) : Option ℚ :=
  match sortedDescBy Prod.snd counts with
  | [] => none
  | p :: _ => some p.1

/-- The (eps, complete-and-pure count) pairs, in sweep order
(`number_complete_and_pure_clusters`). -/
def capCounts (tables : List (ℚ × List Row)) (hmm : HmmDict) (dom : String)
    (ccut pcut : ℚ) : List (ℚ × Nat) :=
  tables.map (fun p => (p.1, numberCAP (getClusterInfo p.2 hmm dom) ccut pcut))

/-- Lines 263-271: split the cluster labels of the scored assignment into
(complete_and_pure_clusters, other_clusters), in score-dict order. -/
def classifyClusters (info : List (Int × ℚ × ℚ)) (ccut pcut : ℚ) : List Int × List Int :=
  info.foldl (fun acc c =>
    if ccut < c.2.1 ∧ pcut < c.2.2 then (acc.1 ++ [c.1], acc.2)
    else (acc.1, acc.2 ++ [c.1])) ([], [])

/-- Lines 274-280: successively drop the rows of each listed cluster. -/
def removeClusters (t : List Row) (cs : List Int) : List Row :=
  cs.foldl (fun acc c => acc.filter (fun r => r.db_cluster ≠ c)) t

/-- Lines 322-326: the output fasta dict, keyed by `none` (the aggregate
unclustered bucket) or `some c` for a complete-and-pure cluster `c`. -/
def initFastas {β : Type} (cap : List Int) : List (Option Int × List β) :=
  cap.foldl (fun d c => dictSet d (some c) []) [(none, [])]

/-- Lines 328-335: append each row's sequence record to its bucket; a
missing sequence is a hard failure (Python `KeyError`), modelled as
`none`. -/
def fastaGo {β : Type} (seqs : List (String × β)) (cap : List Int) :
    List Row → List (Option Int × List β) → Option (List (Option Int × List β))
  | [], d => some d
  | r :: rest, d =>
      match dictGet seqs r.contig with
      | none => none
      | some s =>
          let key : Option Int := if r.db_cluster ∈ cap then some r.db_cluster else none
          fastaGo seqs cap rest (dictSet d key (dictGetD d key [] ++ [s]))

/-- The FASTA-output step (lines 317-335), given the parsed sequences and
the complete-and-pure labels. -/
def fastaOutput {β : Type} (t : List Row) (seqs : List (String × β)) (cap : List Int) :
    Option (List (Option Int × List β)) :=
  fastaGo seqs cap t (initFastas cap)

/-- Rows assigned to a given cluster label. -/
def clusterRows (t : List Row) (c : Int) : List Row :=
  t.filter (fun r => r.db_cluster = c)

/-- The marker identifiers of one contig in the profile (absent contigs
give the empty list). -/
def contigMarkers (hmm : HmmDict) (contig : String) : List String :=
  dictKeys (dictGetD hmm contig [])

/-- The distinct contig identifiers assigned to a cluster. -/
def specClusterContigs (t : List Row) (c : Int) : List String :=
  ((clusterRows t c).map Row.contig).dedup

/-- Spec side: distinct marker identifiers observed over a cluster. -/
def specDistinctMarkers (t : List Row) (hmm : HmmDict) (c : Int) : List String :=
  ((specClusterContigs t c).flatMap (contigMarkers hmm)).dedup

/-- Total occurrences of one marker in one contig's profile entry. -/
def pfSum (pf : List (String × Nat)) (m : String) : Nat :=
  ((pf.filter (fun p => p.1 = m)).map Prod.snd).sum

/-- Spec side: summed occurrence count of a marker across a cluster. -/
def specMarkerSum (t : List Row) (hmm : HmmDict) (c : Int) (m : String) : Nat :=
  ((specClusterContigs t c).map (fun ct => pfSum (dictGetD hmm ct []) m)).sum

/-- The per-cluster part of the marker-totals fold: add every row's markers
into one cluster's dict. -/
def clusterMarkerFold (hmm : HmmDict) (rows : List Row) (base : List (String × Nat)) :
    List (String × Nat) :=
  rows.foldl (fun ms r => addMarkers ms (dictGetD hmm r.contig [])) base

/-- The manual sorted-insertion procedure of lines 108-130 applied to a bare
length list. -/
def pySortDesc (ls : List Nat) : List Nat :=
  ls.foldl (fun acc x => insertLengthAux x acc) []

/-- Modelled from the spec: a single sort-descending operation
(the replacement the spec proposes for the manual insertion). -/
def specSortDesc (ls : List Nat) : List Nat :=
  List.insertionSort (fun a b : Nat => b ≤ a) ls

end Autometa

namespace Autometa

-- Basic dictionary lemmas.

theorem dictGet_dictSet {κ β : Type} [DecidableEq κ] (d : List (κ × β)) (k : κ) (v : β)
    (key : κ) :
    dictGet (dictSet d k v) key = if k = key then some v else dictGet d key := by
  induction d with
  | nil => simp [dictSet, dictGet]
  | cons p rest ih =>
      obtain ⟨k0, v0⟩ := p
      by_cases h0 : k0 = k
      · subst h0
        by_cases h1 : k0 = key <;> simp [dictSet, dictGet, h1]
      · by_cases h1 : k0 = key
        · subst h1
          simp [dictSet, dictGet, h0]
          rw [if_neg (fun h => h0 h.symm)]
        · simp [dictSet, dictGet, h0, h1, ih]

theorem dictGet_dictSet_self {κ β : Type} [DecidableEq κ] (d : List (κ × β)) (k : κ) (v : β) :
    dictGet (dictSet d k v) k = some v := by
  simp [dictGet_dictSet]

theorem dictGet_dictSet_ne {κ β : Type} [DecidableEq κ] (d : List (κ × β)) (k : κ) (v : β)
    (key : κ) (h : k ≠ key) :
    dictGet (dictSet d k v) key = dictGet d key := by
  simp [dictGet_dictSet, h]

theorem dictKeys_dictSet_of_contains {κ β : Type} [DecidableEq κ] (d : List (κ × β)) (k : κ)
    (v : β) (h : dictContains d k = true) :
    dictKeys (dictSet d k v) = dictKeys d := by
  induction d with
  | nil => simp [dictContains, dictGet] at h
  | cons p rest ih =>
      obtain ⟨k0, v0⟩ := p
      by_cases h0 : k0 = k
      · subst h0; simp [dictSet, dictKeys]
      · simp [dictSet, dictKeys, h0] at ih ⊢
        exact ih (by simpa [dictContains, dictGet, h0] using h)

theorem dictKeys_dictSet_of_not_contains {κ β : Type} [DecidableEq κ] (d : List (κ × β))
    (k : κ) (v : β) (h : dictContains d k = false) :
    dictKeys (dictSet d k v) = dictKeys d ++ [k] := by
  induction d with
  | nil => simp [dictSet, dictKeys]
  | cons p rest ih =>
      obtain ⟨k0, v0⟩ := p
      by_cases h0 : k0 = k
      · subst h0; simp [dictContains, dictGet] at h
      · simp [dictSet, dictKeys, h0] at ih ⊢
        exact ih (by simpa [dictContains, dictGet, h0] using h)

theorem mem_dictKeys_iff_isSome {κ β : Type} [DecidableEq κ] (d : List (κ × β)) (key : κ) :
    key ∈ dictKeys d ↔ (dictGet d key).isSome := by
  induction d with
  | nil => simp [dictKeys, dictGet]
  | cons p rest ih =>
      obtain ⟨k0, v0⟩ := p
      by_cases h0 : k0 = key
      · subst h0; simp [dictKeys, dictGet]
      · rw [dictKeys, List.map_cons, List.mem_cons]
        rw [dictKeys] at ih
        simp only [dictGet, if_neg h0]
        constructor
        · intro h
          rcases h with h | h
          · exact absurd h.symm h0
          · exact ih.mp h
        · intro h; exact Or.inr (ih.mpr h)

theorem dictKeys_nodup_dictSet {κ β : Type} [DecidableEq κ] (d : List (κ × β)) (k : κ) (v : β)
    (h : (dictKeys d).Nodup) : (dictKeys (dictSet d k v)).Nodup := by
  by_cases hc : dictContains d k
  · rw [dictKeys_dictSet_of_contains d k v hc]; exact h
  · rw [dictKeys_dictSet_of_not_contains d k v (by simpa using hc)]
    rw [List.nodup_append]
    refine ⟨h, List.nodup_singleton k, ?_⟩
    intro a ha hb
    simp at hb; subst hb
    rw [mem_dictKeys_iff_isSome] at ha
    simp [dictContains] at hc
    rw [hc] at ha
    simp at ha

theorem dictGetD_dictSet_self {κ β : Type} [DecidableEq κ] (d : List (κ × β)) (k : κ) (v : β)
    (dflt : β) : dictGetD (dictSet d k v) k dflt = v := by
  simp [dictGetD, dictGet_dictSet_self]

theorem dictGetD_dictSet_ne {κ β : Type} [DecidableEq κ] (d : List (κ × β)) (k : κ) (v : β)
    (key : κ) (dflt : β) (h : k ≠ key) :
    dictGetD (dictSet d k v) key dflt = dictGetD d key dflt := by
  simp [dictGetD, dictGet_dictSet_ne _ _ _ _ h]

theorem dictSet_eq_append {κ β : Type} [DecidableEq κ] (d : List (κ × β)) (k : κ) (v : β)
    (h : dictContains d k = false) : dictSet d k v = d ++ [(k, v)] := by
  induction d with
  | nil => simp [dictSet]
  | cons p rest ih =>
      obtain ⟨k0, v0⟩ := p
      by_cases h0 : k0 = k
      · subst h0; simp [dictContains, dictGet] at h
      · simp [dictSet, h0]
        exact ih (by simpa [dictContains, dictGet, h0] using h)

theorem dictGet_eq_getD_of_contains {κ β : Type} [DecidableEq κ] (d : List (κ × β)) (k : κ)
    (dflt : β) (h : dictContains d k = true) : dictGet d k = some (dictGetD d k dflt) := by
  simp [dictContains] at h
  obtain ⟨v, hv⟩ := Option.isSome_iff_exists.mp h
  simp [dictGetD, hv]

/-- Two duplicate-free lists with the same members have the same length. -/
theorem length_eq_of_nodup_of_mem_iff {α : Type} [DecidableEq α] {l1 l2 : List α}
    (h1 : l1.Nodup) (h2 : l2.Nodup) (h : ∀ x, x ∈ l1 ↔ x ∈ l2) : l1.length = l2.length := by
  rw [← List.toFinset_card_of_nodup h1, ← List.toFinset_card_of_nodup h2]
  congr 1
  ext x
  simp [h x]

/-- A left fold that only adds equals the initial value plus the sum. -/
theorem foldl_add_eq_sum {α M : Type} [AddCommMonoid M] (f : α → M) (l : List α) (init : M) :
    l.foldl (fun a x => a + f x) init = init + (l.map f).sum := by
  induction l generalizing init with
  | nil => simp
  | cons x rest ih => simp [ih, add_assoc]

end Autometa

namespace Autometa

/-- C7: The expected-marker-count constant is 162 exactly for the domain
string "archaea" and 139 for every other domain string (any unrecognized
value silently falls back to the bacteria constant). -/
theorem expectedNumber_spec (d : String) :
    (d = "archaea" → expectedNumber d = 162) ∧ (d ≠ "archaea" → expectedNumber d = 139) := by
  constructor
  · intro h; simp [expectedNumber, h]
  · intro h; simp [expectedNumber, h]

/-- Witness for C7 at the domains "archaea", "bacteria" and the
unrecognized string "eukaryota". -/
theorem expectedNumber_spec_witness :
    expectedNumber "archaea" = 162 ∧ expectedNumber "bacteria" = 139 ∧
      expectedNumber "eukaryota" = 139 :=
  ⟨(expectedNumber_spec "archaea").1 rfl,
   (expectedNumber_spec "bacteria").2 (by decide),
   (expectedNumber_spec "eukaryota").2 (by decide)⟩

-- The manual sorted-insertion procedure: permutation and sortedness.

theorem insertLengthAux_perm (x : Nat) (l : List Nat) :
    (insertLengthAux x l).Perm (x :: l) := by
  induction l with
  | nil => simp [insertLengthAux]
  | cons b rest ih =>
      by_cases h : b < x
      · simp [insertLengthAux, h]
      · simp only [insertLengthAux, if_neg h]
        exact (ih.cons b).trans (List.Perm.swap x b rest)

theorem mem_insertLengthAux {x y : Nat} {l : List Nat} (h : y ∈ insertLengthAux x l) :
    y = x ∨ y ∈ l := by
  have := (insertLengthAux_perm x l).mem_iff.mp h
  simpa using this

theorem insertLengthAux_sorted (x : Nat) (l : List Nat)
    (h : l.Sorted (fun a b : Nat => b ≤ a)) :
    (insertLengthAux x l).Sorted (fun a b : Nat => b ≤ a) := by
  induction l with
  | nil => simp [insertLengthAux]
  | cons b rest ih =>
      rw [List.sorted_cons] at h
      by_cases hb : b < x
      · simp only [insertLengthAux, if_pos hb]
        rw [List.sorted_cons]
        refine ⟨?_, ?_⟩
        · intro y hy
          rcases List.mem_cons.mp hy with hy | hy
          · exact hy ▸ le_of_lt hb
          · exact le_trans (h.1 y hy) (le_of_lt hb)
        · rw [List.sorted_cons]; exact h
      · simp only [insertLengthAux, if_neg hb]
        rw [List.sorted_cons]
        refine ⟨?_, ih h.2⟩
        intro y hy
        rcases mem_insertLengthAux hy with hy | hy
        · exact hy ▸ Nat.le_of_not_lt hb
        · exact h.1 y hy

theorem foldl_insertLengthAux_perm (ls acc : List Nat) :
    (ls.foldl (fun a x => insertLengthAux x a) acc).Perm (ls ++ acc) := by
  induction ls generalizing acc with
  | nil => simp
  | cons x rest ih =>
      simp only [List.foldl_cons]
      refine (ih (insertLengthAux x acc)).trans ?_
      refine (List.Perm.append_left rest (insertLengthAux_perm x acc)).trans ?_
      exact List.perm_middle

theorem foldl_insertLengthAux_sorted (ls acc : List Nat)
    (h : acc.Sorted (fun a b : Nat => b ≤ a)) :
    (ls.foldl (fun a x => insertLengthAux x a) acc).Sorted (fun a b : Nat => b ≤ a) := by
  induction ls generalizing acc with
  | nil => simpa
  | cons x rest ih => exact ih _ (insertLengthAux_sorted x acc h)

theorem pySortDesc_perm (ls : List Nat) : (pySortDesc ls).Perm ls := by
  simpa using foldl_insertLengthAux_perm ls []

theorem pySortDesc_sorted (ls : List Nat) :
    (pySortDesc ls).Sorted (fun a b : Nat => b ≤ a) :=
  foldl_insertLengthAux_sorted ls [] (by simp)

theorem clusterSorted_eq_pySortDesc (info : List (String × ContigData)) :
    clusterSorted info = pySortDesc (info.map (fun p => p.2.1)) := by
  rw [clusterSorted, pySortDesc, List.foldl_map]

/-- C9: the manual sorted-insertion procedure (insert each length before the
first strictly smaller one, else append) yields exactly the descending sort
of the lengths, and the per-cluster length list of the summary computation
is that procedure applied to the cluster's lengths. -/
theorem insertion_sort_equiv :
    (∀ ls : List Nat, pySortDesc ls = specSortDesc ls) ∧
      (∀ info : List (String × ContigData),
        clusterSorted info = specSortDesc (info.map (fun p => p.2.1))) := by
  have key : ∀ ls : List Nat, pySortDesc ls = specSortDesc ls := by
    intro ls
    refine List.eq_of_perm_of_sorted ?_ (pySortDesc_sorted ls) ?_
    · exact (pySortDesc_perm ls).trans (List.perm_insertionSort _ ls).symm
    · exact List.sorted_insertionSort _ ls
  refine ⟨key, fun info => ?_⟩
  rw [clusterSorted_eq_pySortDesc, key]

-- N50: the running-sum loop satisfies the crossing-point characterisation.

theorem sum_filter_le (p : Nat → Bool) (l : List Nat) : (l.filter p).sum ≤ l.sum := by
  induction l with
  | nil => simp
  | cons x rest ih =>
      by_cases h : p x
      · simp [List.filter_cons, h]; omega
      · simp [List.filter_cons, h]; omega

theorem clusterTotalLength_eq (info : List (String × ContigData)) :
    clusterTotalLength info = (info.map (fun p => p.2.1)).sum := by
  rw [clusterTotalLength, foldl_add_eq_sum]; omega

theorem n50Go_spec (ds : List Nat) : ∀ pre : List Nat,
    (pre ++ ds).Sorted (fun a b : Nat => b ≤ a) → ds ≠ [] →
    2 * pre.sum < (pre ++ ds).sum →
    ∃ n, n50Go (pre ++ ds).sum pre.sum ds = some n ∧ n ∈ ds ∧
      (pre ++ ds).sum ≤ 2 * ((pre ++ ds).filter (fun x => n ≤ x)).sum ∧
      ∀ m ∈ pre ++ ds, n < m →
        2 * ((pre ++ ds).filter (fun x => m ≤ x)).sum < (pre ++ ds).sum := by
  induction ds with
  | nil => intro pre _ hne _; cases hne rfl
  | cons x rest ih =>
      intro pre hs hne hlt
      have hpre_ge : ∀ y ∈ pre, x ≤ y := by
        intro y hy
        have := (List.pairwise_append.mp hs).2.2 y hy x (by simp)
        exact this
      have hrest_le : ∀ y ∈ rest, y ≤ x := by
        have hsr := (List.pairwise_append.mp hs).2.1
        rw [List.pairwise_cons] at hsr
        exact hsr.1
      by_cases h : (pre ++ x :: rest).sum ≤ 2 * (pre.sum + x)
      · refine ⟨x, ?_, by simp, ?_, ?_⟩
        · simp only [n50Go]
          rw [if_pos h]
        · have hfp : pre.filter (fun y => decide (x ≤ y)) = pre :=
            List.filter_eq_self.mpr (fun y hy => by simpa using hpre_ge y hy)
          have : ((pre ++ x :: rest).filter (fun y => decide (x ≤ y))).sum =
              pre.sum + x + (rest.filter (fun y => decide (x ≤ y))).sum := by
            rw [List.filter_append, List.filter_cons]
            simp [hfp]
            omega
          rw [this]
          omega
        · intro m _ hm
          have hxr : (x :: rest).filter (fun y => decide (m ≤ y)) = [] := by
            apply List.filter_eq_nil_iff.mpr
            intro y hy
            rcases List.mem_cons.mp hy with hy | hy
            · subst hy; simpa using Nat.not_le_of_lt hm
            · have : y ≤ x := hrest_le y hy
              simp only [decide_eq_true_eq]
              omega
          rw [List.filter_append, hxr, List.append_nil]
          have := sum_filter_le (fun y => decide (m ≤ y)) pre
          omega
      · push_neg at h
        have hx2 : 2 * (pre.sum + x) < (pre ++ x :: rest).sum := h
        have hrest_ne : rest ≠ [] := by
          intro hr
          subst hr
          simp [List.sum_append] at hx2
          omega
        have hassoc : (pre ++ [x]) ++ rest = pre ++ x :: rest := by
          rw [List.append_assoc]; rfl
        have hsum' : (pre ++ [x]).sum = pre.sum + x := by simp
        obtain ⟨n, hgo, hmem, hhalf, hmax⟩ :=
          ih (pre ++ [x]) (by rw [hassoc]; exact hs) hrest_ne
            (by rw [hassoc, hsum']; exact hx2)
        rw [hassoc] at hgo hhalf hmax
        rw [hsum'] at hgo
        refine ⟨n, ?_, List.mem_cons_of_mem x hmem, hhalf, hmax⟩
        simp only [n50Go]
        rw [if_neg (by omega)]
        exact hgo

-- The N50 claim, stated on the per-cluster summary.

theorem clusterSorted_perm (entry : List (String × ContigData)) :
    (clusterSorted entry).Perm (entry.map (fun p => p.2.1)) := by
  rw [clusterSorted_eq_pySortDesc]
  exact pySortDesc_perm _

/-- C4: for every non-empty cluster of the assignment, the computed N50 `n`
is a contig length of the cluster, the lengths that are at least `n` sum to
at least half the cluster's total size, and no strictly larger contig
length of the cluster has that property. -/
theorem n50_spec (t : List Row) (c : Int) (entry : List (String × ContigData))
    (hget : dictGet (buildClusterContigInfo t) c = some entry) (hne : entry ≠ []) :
    ∃ n, (summarizeCluster entry).n50 = some n ∧
      n ∈ entry.map (fun p => p.2.1) ∧
      (summarizeCluster entry).size ≤
        2 * ((entry.map (fun p => p.2.1)).filter (fun x => n ≤ x)).sum ∧
      ∀ m ∈ entry.map (fun p => p.2.1), n < m →
        2 * ((entry.map (fun p => p.2.1)).filter (fun x => m ≤ x)).sum <
          (summarizeCluster entry).size := by
  classical
  set ls := entry.map (fun p => p.2.1) with hls
  have hperm : (clusterSorted entry).Perm ls := clusterSorted_perm entry
  have hsize : (summarizeCluster entry).size = (clusterSorted entry).sum := by
    show clusterTotalLength entry = _
    rw [clusterTotalLength_eq, hperm.sum_eq]
  have hn50 : (summarizeCluster entry).n50 =
      n50Go (clusterTotalLength entry) 0 (clusterSorted entry) := rfl
  have htot : clusterTotalLength entry = (clusterSorted entry).sum := by
    rw [clusterTotalLength_eq, hperm.sum_eq]
  have hds_ne : clusterSorted entry ≠ [] := by
    intro hempty
    have := hperm.length_eq
    rw [hempty] at this
    simp [hls] at this
    exact hne (List.length_eq_zero.mp this.symm)
  have hfiltersum : ∀ k : Nat,
      ((clusterSorted entry).filter (fun x => k ≤ x)).sum =
        (ls.filter (fun x => k ≤ x)).sum := fun k => (hperm.filter _).sum_eq
  by_cases hz : (clusterSorted entry).sum = 0
  · -- all lengths are zero; the loop returns the head at once
    obtain ⟨x, ds', hcons⟩ := List.exists_cons_of_ne_nil hds_ne
    have hall : ∀ y ∈ clusterSorted entry, y = 0 := List.sum_eq_zero_iff.mp hz
    refine ⟨x, ?_, ?_, ?_, ?_⟩
    · rw [hn50, htot, hz, hcons]
      simp [n50Go]
    · exact hperm.mem_iff.mp (by rw [hcons]; simp)
    · rw [hsize, hz]; omega
    · intro m hm hxm
      exfalso
      have hm0 : m = 0 := by
        have := List.sum_eq_zero_iff.mp (hperm.sum_eq ▸ hz) m hm
        exact this
      have hx0 : x = 0 := hall x (by rw [hcons]; simp)
      omega
  · obtain ⟨n, hgo, hmem, hhalf, hmax⟩ :=
      n50Go_spec (clusterSorted entry) []
        (by simpa using (clusterSorted_eq_pySortDesc entry ▸ pySortDesc_sorted ls))
        hds_ne (by simpa using Nat.pos_of_ne_zero hz)
    simp only [List.nil_append, List.sum_nil] at hgo hhalf hmax
    refine ⟨n, ?_, hperm.mem_iff.mp hmem, ?_, ?_⟩
    · rw [hn50, htot]
      simpa using hgo
    · rw [hsize, ← hfiltersum]
      exact hhalf
    · intro m hm hnm
      rw [hsize, ← hfiltersum]
      exact hmax m (hperm.mem_iff.mpr hm) hnm

/-- A small concrete assignment used by several witnesses. -/
def sampleRows : List Row :=
  [⟨"C1", 1, 500, 1/2, 2⟩, ⟨"C2", 1, 300, 1/4, 4⟩,
   ⟨"C3", 1, 150, 1/2, 1⟩, ⟨"C4", 1, 50, 1, 3⟩, ⟨"C5", 0, 100, 1/5, 6⟩]

/-- The contig dict of cluster 1 of `sampleRows`. -/
def sampleEntry : List (String × ContigData) :=
  [("C1", (500, 1/2, 2)), ("C2", (300, 1/4, 4)),
   ("C3", (150, 1/2, 1)), ("C4", (50, 1, 3))]

/-- Witness for C4 on the concrete cluster 1 of `sampleRows`. -/
theorem n50_spec_witness :
    ∃ n, (summarizeCluster sampleEntry).n50 = some n ∧
      n ∈ sampleEntry.map (fun p => p.2.1) ∧
      (summarizeCluster sampleEntry).size ≤
        2 * ((sampleEntry.map (fun p => p.2.1)).filter (fun x => n ≤ x)).sum ∧
      ∀ m ∈ sampleEntry.map (fun p => p.2.1), n < m →
        2 * ((sampleEntry.map (fun p => p.2.1)).filter (fun x => m ≤ x)).sum <
          (summarizeCluster sampleEntry).size :=
  n50_spec sampleRows 1 sampleEntry rfl (by decide)

-- Weighted averages: the length fractions and the weighted sums.

theorem sum_map_div {α : Type} (f : α → ℚ) (c : ℚ) (l : List α) :
    (l.map (fun x => f x / c)).sum = (l.map f).sum / c := by
  induction l with
  | nil => simp
  | cons x rest ih => simp [ih, add_div]

/-- C6: in a cluster of positive total length, the length fractions sum to
exactly 1 as rationals, and the reported gc and coverage are exactly the
fraction-weighted sums of the contig values. -/
theorem weighted_average_spec (t : List Row) (c : Int) (entry : List (String × ContigData))
    (hget : dictGet (buildClusterContigInfo t) c = some entry)
    (hpos : 0 < clusterTotalLength entry) :
    (entry.map (fun p => (p.2.1 : ℚ) / (clusterTotalLength entry : ℚ))).sum = 1 ∧
    (summarizeCluster entry).gc_percent =
      (entry.map (fun p => p.2.2.1 * ((p.2.1 : ℚ) / (clusterTotalLength entry : ℚ)))).sum ∧
    (summarizeCluster entry).cov =
      (entry.map (fun p => p.2.2.2 * ((p.2.1 : ℚ) / (clusterTotalLength entry : ℚ)))).sum := by
  have hcast : ((clusterTotalLength entry : ℚ)) =
      (entry.map (fun p => ((p.2.1 : ℚ)))).sum := by
    rw [clusterTotalLength_eq]
    rw [Nat.cast_list_sum, List.map_map]
    rfl
  refine ⟨?_, ?_, ?_⟩
  · rw [sum_map_div (fun p => ((p.2.1 : ℚ))) _ entry, ← hcast]
    have hne : (clusterTotalLength entry : ℚ) ≠ 0 := by
      exact_mod_cast Nat.pos_iff_ne_zero.mp hpos
    exact div_self hne
  · show entry.foldl _ 0 = _
    rw [foldl_add_eq_sum]
    simp
  · show entry.foldl _ 0 = _
    rw [foldl_add_eq_sum]
    simp

-- Marker totals: the per-cluster dict fold computes union-and-sum.

theorem dictGetD_of_not_contains {κ β : Type} [DecidableEq κ] (d : List (κ × β)) (k : κ)
    (dflt : β) (h : dictContains d k = false) : dictGetD d k dflt = dflt := by
  simp [dictContains] at h
  simp [dictGetD, h]

theorem dictGetD_addMarkers (ms pf : List (String × Nat)) (m : String) :
    dictGetD (addMarkers ms pf) m 0 = dictGetD ms m 0 + pfSum pf m := by
  induction pf generalizing ms with
  | nil => simp [addMarkers, pfSum]
  | cons p pf ih =>
      have hstep : ∀ ms0 : List (String × Nat),
          dictGetD (if dictContains ms0 p.1 then
              dictSet ms0 p.1 (dictGetD ms0 p.1 0 + p.2)
            else dictSet ms0 p.1 p.2) m 0 =
          dictGetD ms0 m 0 + (if p.1 = m then p.2 else 0) := by
        intro ms0
        by_cases hc : dictContains ms0 p.1
        · rw [if_pos hc]
          by_cases hm : p.1 = m
          · subst hm; rw [dictGetD_dictSet_self]; simp
          · rw [dictGetD_dictSet_ne _ _ _ _ _ hm, if_neg hm]; omega
        · rw [if_neg hc]
          by_cases hm : p.1 = m
          · subst hm
            rw [dictGetD_dictSet_self, dictGetD_of_not_contains _ _ _ (by simpa using hc)]
            simp
          · rw [dictGetD_dictSet_ne _ _ _ _ _ hm, if_neg hm]; omega
      have hpf : pfSum (p :: pf) m = (if p.1 = m then p.2 else 0) + pfSum pf m := by
        by_cases hm : p.1 = m
        · simp [pfSum, List.filter_cons, hm]
        · simp [pfSum, List.filter_cons, hm]
      show dictGetD (addMarkers (if dictContains ms p.1 then
          dictSet ms p.1 (dictGetD ms p.1 0 + p.2) else dictSet ms p.1 p.2) pf) m 0 = _
      rw [ih, hstep, hpf]
      omega

theorem mem_dictKeys_addMarkers (ms pf : List (String × Nat)) (m : String) :
    m ∈ dictKeys (addMarkers ms pf) ↔ m ∈ dictKeys ms ∨ m ∈ dictKeys pf := by
  induction pf generalizing ms with
  | nil => simp [addMarkers, dictKeys]
  | cons p pf ih =>
      have hstep : ∀ ms0 : List (String × Nat),
          m ∈ dictKeys (if dictContains ms0 p.1 then
              dictSet ms0 p.1 (dictGetD ms0 p.1 0 + p.2)
            else dictSet ms0 p.1 p.2) ↔ m ∈ dictKeys ms0 ∨ m = p.1 := by
        intro ms0
        by_cases hc : dictContains ms0 p.1
        · rw [if_pos hc, dictKeys_dictSet_of_contains _ _ _ hc]
          constructor
          · exact Or.inl
          · intro h
            rcases h with h | h
            · exact h
            · subst h
              rw [mem_dictKeys_iff_isSome]
              simpa [dictContains] using hc
        · rw [if_neg hc, dictKeys_dictSet_of_not_contains _ _ _ (by simpa using hc)]
          simp
      show m ∈ dictKeys (addMarkers _ pf) ↔ _
      rw [ih, hstep]
      simp [dictKeys]
      tauto

theorem nodup_dictKeys_addMarkers (ms pf : List (String × Nat))
    (h : (dictKeys ms).Nodup) : (dictKeys (addMarkers ms pf)).Nodup := by
  induction pf generalizing ms with
  | nil => simpa [addMarkers]
  | cons p pf ih =>
      show (dictKeys (addMarkers (if dictContains ms p.1 then
          dictSet ms p.1 (dictGetD ms p.1 0 + p.2) else dictSet ms p.1 p.2) pf)).Nodup
      apply ih
      by_cases hc : dictContains ms p.1
      · rw [if_pos hc]; exact dictKeys_nodup_dictSet _ _ _ h
      · rw [if_neg hc]; exact dictKeys_nodup_dictSet _ _ _ h

theorem markerStep_get (hmm : HmmDict) (mt : List (Int × List (String × Nat))) (r : Row)
    (c : Int) :
    dictGet (markerStep hmm mt r) c =
      if r.db_cluster = c then
        some (addMarkers (dictGetD mt c []) (dictGetD hmm r.contig []))
      else dictGet mt c := by
  have hgetD1 : dictGetD (if dictContains mt r.db_cluster then mt
      else dictSet mt r.db_cluster []) r.db_cluster ([] : List (String × Nat)) =
      dictGetD mt r.db_cluster [] := by
    by_cases hc : dictContains mt r.db_cluster
    · rw [if_pos hc]
    · rw [if_neg hc, dictGetD_dictSet_self, dictGetD_of_not_contains _ _ _ (by simpa using hc)]
  by_cases hdb : r.db_cluster = c
  · subst hdb
    rw [if_pos rfl]
    cases hpf : dictGet hmm r.contig with
    | none =>
        simp only [markerStep, hpf]
        have hh : dictGetD hmm r.contig ([] : List (String × Nat)) = [] := by
          simp [dictGetD, hpf]
        rw [hh]
        by_cases hc : dictContains mt r.db_cluster
        · rw [if_pos hc]
          rw [dictGet_eq_getD_of_contains mt r.db_cluster [] hc]
          rfl
        · rw [if_neg hc, dictGet_dictSet_self]
          rw [dictGetD_of_not_contains _ _ _ (by simpa using hc)]
          rfl
    | some pf =>
        simp only [markerStep, hpf]
        rw [dictGet_dictSet_self, hgetD1]
        have hh : dictGetD hmm r.contig ([] : List (String × Nat)) = pf := by
          simp [dictGetD, hpf]
        rw [hh]
  · rw [if_neg hdb]
    cases hpf : dictGet hmm r.contig with
    | none =>
        simp only [markerStep, hpf]
        by_cases hc : dictContains mt r.db_cluster
        · rw [if_pos hc]
        · rw [if_neg hc, dictGet_dictSet_ne _ _ _ _ hdb]
    | some pf =>
        simp only [markerStep, hpf]
        rw [dictGet_dictSet_ne _ _ _ _ hdb]
        by_cases hc : dictContains mt r.db_cluster
        · rw [if_pos hc]
        · rw [if_neg hc, dictGet_dictSet_ne _ _ _ _ hdb]

theorem markerStep_contains (hmm : HmmDict) (mt : List (Int × List (String × Nat))) (r : Row)
    (c : Int) (h : r.db_cluster = c) : dictContains (markerStep hmm mt r) c = true := by
  simp [dictContains, markerStep_get, h]

theorem foldl_markerStep_get (hmm : HmmDict) (t : List Row) : ∀ acc c,
    (dictContains acc c = true ∨ c ∈ t.map Row.db_cluster) →
    dictGet (t.foldl (markerStep hmm) acc) c =
      some (clusterMarkerFold hmm (clusterRows t c) (dictGetD acc c [])) := by
  induction t with
  | nil =>
      intro acc c h
      rcases h with h | h
      · simp only [List.foldl_nil]
        exact dictGet_eq_getD_of_contains acc c [] h
      · simp at h
  | cons r t ih =>
      intro acc c h
      simp only [List.foldl_cons]
      by_cases hdb : r.db_cluster = c
      · rw [ih (markerStep hmm acc r) c (Or.inl (markerStep_contains hmm acc r c hdb))]
        have h1 : dictGetD (markerStep hmm acc r) c [] =
            addMarkers (dictGetD acc c []) (dictGetD hmm r.contig []) := by
          simp [dictGetD, markerStep_get, hdb]
        rw [h1]
        have h2 : clusterRows (r :: t) c = r :: clusterRows t c := by
          simp [clusterRows, List.filter_cons, hdb]
        rw [h2]
        rfl
      · have h1 : dictGetD (markerStep hmm acc r) c ([] : List (String × Nat)) =
            dictGetD acc c [] := by
          simp [dictGetD, markerStep_get, hdb]
        have h2 : clusterRows (r :: t) c = clusterRows t c := by
          simp [clusterRows, List.filter_cons, hdb]
        have h3 : dictContains (markerStep hmm acc r) c = dictContains acc c := by
          simp [dictContains, markerStep_get, hdb]
        rw [ih (markerStep hmm acc r) c ?_, h1, h2]
        rcases h with h | h
        · exact Or.inl (h3 ▸ h)
        · simp at h
          rcases h with h | h
          · exact absurd h.symm hdb
          · exact Or.inr (by simpa using h)

theorem foldl_markerStep_get_of_not_mem (hmm : HmmDict) (t : List Row) : ∀ acc c,
    c ∉ t.map Row.db_cluster →
    dictGet (t.foldl (markerStep hmm) acc) c = dictGet acc c := by
  induction t with
  | nil => intro acc c _; rfl
  | cons r t ih =>
      intro acc c h
      simp at h
      simp only [List.foldl_cons]
      rw [ih (markerStep hmm acc r) c (by simpa using h.2), markerStep_get,
        if_neg (fun he => h.1 he.symm)]

theorem clusterMarkerFold_getD (hmm : HmmDict) (rows : List Row) : ∀ base m,
    dictGetD (clusterMarkerFold hmm rows base) m 0 =
      dictGetD base m 0 + (rows.map (fun r => pfSum (dictGetD hmm r.contig []) m)).sum := by
  induction rows with
  | nil => intro base m; simp [clusterMarkerFold]
  | cons r rows ih =>
      intro base m
      show dictGetD (clusterMarkerFold hmm rows
        (addMarkers base (dictGetD hmm r.contig []))) m 0 = _
      rw [ih, dictGetD_addMarkers]
      simp
      omega

theorem clusterMarkerFold_mem_keys (hmm : HmmDict) (rows : List Row) : ∀ base m,
    m ∈ dictKeys (clusterMarkerFold hmm rows base) ↔
      m ∈ dictKeys base ∨ m ∈ rows.flatMap (fun r => contigMarkers hmm r.contig) := by
  induction rows with
  | nil => intro base m; simp [clusterMarkerFold]
  | cons r rows ih =>
      intro base m
      show m ∈ dictKeys (clusterMarkerFold hmm rows
        (addMarkers base (dictGetD hmm r.contig []))) ↔ _
      rw [ih, mem_dictKeys_addMarkers]
      simp [contigMarkers]
      tauto

theorem clusterMarkerFold_nodup (hmm : HmmDict) (rows : List Row) : ∀ base,
    (dictKeys base).Nodup → (dictKeys (clusterMarkerFold hmm rows base)).Nodup := by
  induction rows with
  | nil => intro base h; simpa [clusterMarkerFold]
  | cons r rows ih =>
      intro base h
      exact ih _ (nodup_dictKeys_addMarkers _ _ h)

theorem dictGet_map_value {κ β γ : Type} [DecidableEq κ] (F : β → γ) (l : List (κ × β))
    (key : κ) :
    dictGet (l.map (fun p => (p.1, F p.2))) key = Option.map F (dictGet l key) := by
  induction l with
  | nil => rfl
  | cons p rest ih =>
      by_cases h : p.1 = key
      · simp [dictGet, h]
      · simp [dictGet, h, ih]

theorem filter_length_eq_keys (d : List (String × Nat)) (h : (dictKeys d).Nodup) :
    (d.filter (fun p => p.2 = 1)).length =
      ((dictKeys d).filter (fun m => dictGetD d m 0 = 1)).length := by
  induction d with
  | nil => rfl
  | cons p rest ih =>
      obtain ⟨k, v⟩ := p
      have hk : k ∉ dictKeys rest := by
        intro hmem
        rw [dictKeys, List.map_cons, List.nodup_cons] at h
        exact h.1 hmem
      have hrest : (dictKeys rest).Nodup := by
        rw [dictKeys, List.map_cons, List.nodup_cons] at h
        exact h.2
      have hgk : dictGetD ((k, v) :: rest) k 0 = v := by simp [dictGetD, dictGet]
      have hcongr : (dictKeys rest).filter (fun m => dictGetD ((k, v) :: rest) m 0 = 1) =
          (dictKeys rest).filter (fun m => dictGetD rest m 0 = 1) := by
        apply List.filter_congr
        intro m hm
        have hne : k ≠ m := fun he => hk (he ▸ hm)
        simp [dictGetD, dictGet, hne]
      have hkeys : dictKeys ((k, v) :: rest) = k :: dictKeys rest := rfl
      rw [hkeys, List.filter_cons, List.filter_cons, hcongr]
      by_cases hv : v = 1
      · rw [if_pos (by simp [hv]), if_pos (by simp [dictGetD, dictGet, hv])]
        simp [ih hrest]
      · rw [if_neg (by simp [hv]), if_neg (by simp [dictGetD, dictGet, hv])]
        exact ih hrest

/-- Witness for C6 on the concrete cluster 1 of `sampleRows`. -/
theorem weighted_average_spec_witness :
    (sampleEntry.map (fun p => (p.2.1 : ℚ) / (clusterTotalLength sampleEntry : ℚ))).sum = 1 ∧
    (summarizeCluster sampleEntry).gc_percent =
      (sampleEntry.map
        (fun p => p.2.2.1 * ((p.2.1 : ℚ) / (clusterTotalLength sampleEntry : ℚ)))).sum ∧
    (summarizeCluster sampleEntry).cov =
      (sampleEntry.map
        (fun p => p.2.2.2 * ((p.2.1 : ℚ) / (clusterTotalLength sampleEntry : ℚ)))).sum :=
  weighted_average_spec sampleRows 1 sampleEntry rfl (by decide)

/-- C1: for every scored cluster label, completeness is
100 x (distinct markers over the cluster) / expected count and purity is
100 x (markers whose summed occurrence over the cluster is exactly 1) /
expected count; contigs absent from the marker profile contribute no
markers. -/
theorem getClusterInfo_spec (t : List Row) (hmm : HmmDict) (dom : String) (c : Int)
    (q : ℚ × ℚ) (hnodup : (t.map Row.contig).Nodup)
    (hget : dictGet (getClusterInfo t hmm dom) c = some q) :
    q.1 = 100 * ((specDistinctMarkers t hmm c).length : ℚ) / (expectedNumber dom : ℚ) ∧
    q.2 = 100 * (((specDistinctMarkers t hmm c).filter
        (fun m => specMarkerSum t hmm c m = 1)).length : ℚ) / (expectedNumber dom : ℚ) := by
  classical
  rw [getClusterInfo, dictGet_map_value (fun ms => scoreMarkers ms dom)] at hget
  cases hbmt : dictGet (buildMarkerTotals t hmm) c with
  | none => rw [hbmt] at hget; simp at hget
  | some entry =>
      rw [hbmt] at hget
      have hq : scoreMarkers entry dom = q := by simpa using hget
      have hc_mem : c ∈ t.map Row.db_cluster := by
        by_contra hmem
        rw [buildMarkerTotals] at hbmt
        rw [foldl_markerStep_get_of_not_mem hmm t [] c hmem] at hbmt
        simp [dictGet] at hbmt
      have hentry : entry = clusterMarkerFold hmm (clusterRows t c) [] := by
        have := foldl_markerStep_get hmm t [] c (Or.inr hc_mem)
        rw [buildMarkerTotals] at hbmt
        rw [hbmt] at this
        simpa [dictGetD, dictGet] using this
      set rows := clusterRows t c with hrows
      have hnodup_rows : (rows.map Row.contig).Nodup := by
        have hsub : (rows.map Row.contig).Sublist (t.map Row.contig) :=
          (List.filter_sublist t).map Row.contig
        exact hnodup.sublist hsub
      have hcc : specClusterContigs t c = rows.map Row.contig :=
        List.Nodup.dedup hnodup_rows
      have hflat : (specClusterContigs t c).flatMap (contigMarkers hmm) =
          rows.flatMap (fun r => contigMarkers hmm r.contig) := by
        rw [hcc, List.flatMap_map]
      have hspec : specDistinctMarkers t hmm c =
          (rows.flatMap (fun r => contigMarkers hmm r.contig)).dedup := by
        rw [specDistinctMarkers, hflat]
      have hsum_eq : ∀ m, specMarkerSum t hmm c m =
          (rows.map (fun r => pfSum (dictGetD hmm r.contig []) m)).sum := by
        intro m
        rw [specMarkerSum, hcc, List.map_map]
        rfl
      have hkeys_nodup : (dictKeys entry).Nodup := by
        rw [hentry]
        exact clusterMarkerFold_nodup hmm rows [] (by simp [dictKeys])
      have hkeys_mem : ∀ m, m ∈ dictKeys entry ↔
          m ∈ rows.flatMap (fun r => contigMarkers hmm r.contig) := by
        intro m
        rw [hentry, clusterMarkerFold_mem_keys]
        simp [dictKeys]
      have hvals : ∀ m, dictGetD entry m 0 = specMarkerSum t hmm c m := by
        intro m
        rw [hentry, clusterMarkerFold_getD, hsum_eq]
        simp [dictGetD, dictGet]
      have hlen : entry.length = (specDistinctMarkers t hmm c).length := by
        have h1 : entry.length = (dictKeys entry).length := by
          simp [dictKeys]
        rw [h1, hspec]
        refine length_eq_of_nodup_of_mem_iff hkeys_nodup (List.nodup_dedup _) ?_
        intro m
        rw [hkeys_mem m, List.mem_dedup]
      have hulen : (entry.filter (fun p => p.2 = 1)).length =
          ((specDistinctMarkers t hmm c).filter
            (fun m => specMarkerSum t hmm c m = 1)).length := by
        rw [filter_length_eq_keys entry hkeys_nodup]
        have hpred : (dictKeys entry).filter (fun m => dictGetD entry m 0 = 1) =
            (dictKeys entry).filter (fun m => specMarkerSum t hmm c m = 1) := by
          apply List.filter_congr
          intro m _
          rw [hvals m]
        rw [hpred]
        refine length_eq_of_nodup_of_mem_iff
          (hkeys_nodup.filter _) ((List.nodup_dedup _).filter _) ?_
        intro m
        rw [List.mem_filter, List.mem_filter, hkeys_mem m, hspec, List.mem_dedup]
      constructor
      · rw [← hq]
        show ((entry.length : ℚ) / (expectedNumber dom : ℚ)) * 100 = _
        rw [hlen]
        ring
      · rw [← hq]
        show (((entry.filter (fun m => m.2 = 1)).length : ℚ) /
          (expectedNumber dom : ℚ)) * 100 = _
        rw [hulen]
        ring

/-- The marker profile used by the C1 witness: contig C1 has a duplicated
marker PF1, contig C2 has PF2 once, contig C3 is absent. -/
def sampleHmm : HmmDict := [("C1", [("PF1", 2)]), ("C2", [("PF2", 1)])]

/-- Witness for C1 on cluster 1 of `sampleRows` with `sampleHmm`. -/
theorem getClusterInfo_spec_witness :
    (scoreMarkers [("PF1", 2), ("PF2", 1)] "bacteria").1 =
      100 * ((specDistinctMarkers sampleRows sampleHmm 1).length : ℚ) /
        (expectedNumber "bacteria" : ℚ) ∧
    (scoreMarkers [("PF1", 2), ("PF2", 1)] "bacteria").2 =
      100 * (((specDistinctMarkers sampleRows sampleHmm 1).filter
        (fun m => specMarkerSum sampleRows sampleHmm 1 m = 1)).length : ℚ) /
        (expectedNumber "bacteria" : ℚ) :=
  getClusterInfo_spec sampleRows sampleHmm "bacteria" 1
    (scoreMarkers [("PF1", 2), ("PF2", 1)] "bacteria") (by decide) rfl

-- The contig dict of one cluster: last write wins, keys are the distinct
-- contig identifiers.

theorem mem_dictKeys_dictSet {κ β : Type} [DecidableEq κ] (d : List (κ × β)) (k0 : κ)
    (v : β) (m : κ) : m ∈ dictKeys (dictSet d k0 v) ↔ m ∈ dictKeys d ∨ m = k0 := by
  by_cases hc : dictContains d k0
  · rw [dictKeys_dictSet_of_contains _ _ _ hc]
    constructor
    · exact Or.inl
    · intro h
      rcases h with h | h
      · exact h
      · subst h
        rw [mem_dictKeys_iff_isSome]
        simpa [dictContains] using hc
  · rw [dictKeys_dictSet_of_not_contains _ _ _ (by simpa using hc)]
    simp

theorem ccStep_getD (d : List (Int × List (String × ContigData))) (r : Row) (c : Int) :
    dictGetD (ccStep d r) c [] =
      if r.db_cluster = c then
        dictSet (dictGetD d c []) r.contig (r.length, r.gc, r.cov)
      else dictGetD d c [] := by
  by_cases hdb : r.db_cluster = c
  · subst hdb
    rw [if_pos rfl]
    by_cases hc : dictContains d r.db_cluster
    · rw [ccStep, if_pos hc, dictGetD_dictSet_self]
    · rw [ccStep, if_neg hc, dictGetD_dictSet_self,
        dictGetD_of_not_contains _ _ _ (by simpa using hc)]
      rfl
  · rw [if_neg hdb]
    by_cases hc : dictContains d r.db_cluster
    · rw [ccStep, if_pos hc, dictGetD_dictSet_ne _ _ _ _ _ hdb]
    · rw [ccStep, if_neg hc, dictGetD_dictSet_ne _ _ _ _ _ hdb]

/-- The per-cluster contig-dict fold. -/
def contigFold (rows : List Row) (base : List (String × ContigData)) :
    List (String × ContigData) :=
  rows.foldl (fun e r => dictSet e r.contig (r.length, r.gc, r.cov)) base

theorem foldl_ccStep_getD (t : List Row) : ∀ acc c,
    dictGetD (t.foldl ccStep acc) c [] = contigFold (clusterRows t c) (dictGetD acc c []) := by
  induction t with
  | nil => intro acc c; simp [clusterRows, contigFold]
  | cons r t ih =>
      intro acc c
      simp only [List.foldl_cons]
      rw [ih (ccStep acc r) c, ccStep_getD]
      by_cases hdb : r.db_cluster = c
      · rw [if_pos hdb]
        have h2 : clusterRows (r :: t) c = r :: clusterRows t c := by
          simp [clusterRows, List.filter_cons, hdb]
        rw [h2]
        rfl
      · rw [if_neg hdb]
        have h2 : clusterRows (r :: t) c = clusterRows t c := by
          simp [clusterRows, List.filter_cons, hdb]
        rw [h2]

theorem contigFold_get (k : String) (rows : List Row) :
    ∀ base, dictGet (contigFold rows base) k =
      match (rows.filter (fun r => r.contig = k)).getLast? with
      | none => dictGet base k
      | some r => some (r.length, r.gc, r.cov) := by
  induction rows with
  | nil => intro base; rfl
  | cons r rows ih =>
      intro base
      show dictGet (contigFold rows (dictSet base r.contig (r.length, r.gc, r.cov))) k = _
      rw [ih]
      by_cases hk : r.contig = k
      · have hfc : (r :: rows).filter (fun s => s.contig = k) =
            r :: rows.filter (fun s => s.contig = k) := by
          simp [List.filter_cons, hk]
        rw [hfc]
        cases hl : (rows.filter (fun s => s.contig = k)).getLast? with
        | none =>
            have hnil : rows.filter (fun s => s.contig = k) = [] := by
              cases hfil : rows.filter (fun s => s.contig = k) with
              | nil => rfl
              | cons a l => rw [hfil] at hl; simp at hl
            rw [hnil]
            subst hk
            simp [dictGet_dictSet_self]
        | some s =>
            have hlast : (r :: rows.filter (fun q => q.contig = k)).getLast? = some s := by
              cases hfil : rows.filter (fun q => q.contig = k) with
              | nil => rw [hfil] at hl; simp at hl
              | cons a l =>
                  rw [hfil] at hl
                  rw [List.getLast?_cons_cons]
                  exact hl
            rw [hlast]
      · have hfc : (r :: rows).filter (fun s => s.contig = k) =
            rows.filter (fun s => s.contig = k) := by
          simp [List.filter_cons, hk]
        rw [hfc]
        cases hl : (rows.filter (fun s => s.contig = k)).getLast? with
        | none => rw [dictGet_dictSet_ne _ _ _ _ hk]
        | some s => rfl

theorem contigFold_mem_keys (k : String) (rows : List Row) : ∀ base,
    k ∈ dictKeys (contigFold rows base) ↔ k ∈ dictKeys base ∨ k ∈ rows.map Row.contig := by
  induction rows with
  | nil => intro base; simp [contigFold]
  | cons r rows ih =>
      intro base
      show k ∈ dictKeys (contigFold rows (dictSet base r.contig (r.length, r.gc, r.cov))) ↔ _
      rw [ih, mem_dictKeys_dictSet]
      simp
      tauto

theorem contigFold_nodup (rows : List Row) : ∀ base,
    (dictKeys base).Nodup → (dictKeys (contigFold rows base)).Nodup := by
  induction rows with
  | nil => intro base h; simpa [contigFold]
  | cons r rows ih =>
      intro base h
      exact ih _ (dictKeys_nodup_dictSet _ _ _ h)

/-- C10: the per-cluster contig map holds, for each contig identifier, the
data of the LAST row of that cluster with that identifier (later duplicate
rows overwrite earlier ones), and number_contigs counts distinct contig
identifiers in the cluster, not rows. -/
theorem last_row_wins (t : List Row) (c : Int) (k : String) :
    dictGet (dictGetD (buildClusterContigInfo t) c []) k =
      (((clusterRows t c).filter (fun r => r.contig = k)).getLast?).map
        (fun r => (r.length, r.gc, r.cov)) ∧
    (summarizeCluster (dictGetD (buildClusterContigInfo t) c [])).number_contigs =
      ((clusterRows t c).map Row.contig).dedup.length := by
  have hentry : dictGetD (buildClusterContigInfo t) c [] =
      contigFold (clusterRows t c) [] := by
    rw [buildClusterContigInfo, foldl_ccStep_getD]
    rfl
  constructor
  · rw [hentry, contigFold_get]
    cases (clusterRows t c).filter (fun r => r.contig = k) |>.getLast? with
    | none => rfl
    | some s => rfl
  · rw [hentry]
    show (clusterSorted (contigFold (clusterRows t c) [])).length = _
    have hperm := clusterSorted_perm (contigFold (clusterRows t c) [])
    rw [hperm.length_eq, List.length_map]
    have h1 : (contigFold (clusterRows t c) []).length =
        (dictKeys (contigFold (clusterRows t c) [])).length := by
      simp [dictKeys]
    rw [h1]
    refine length_eq_of_nodup_of_mem_iff
      (contigFold_nodup _ [] (by simp [dictKeys])) (List.nodup_dedup _) ?_
    intro m
    rw [contigFold_mem_keys, List.mem_dedup]
    simp [dictKeys]

-- FASTA output: missing sequences are a hard failure; otherwise every
-- row's record lands in its bucket.

theorem fastaGo_none {β : Type} (seqs : List (String × β)) (cap : List Int)
    (t : List Row) : ∀ d, (∃ r ∈ t, dictGet seqs r.contig = none) →
    fastaGo seqs cap t d = none := by
  induction t with
  | nil => intro d h; simp at h
  | cons r t ih =>
      intro d h
      rcases h with ⟨r0, hr0, hnone⟩
      rcases List.mem_cons.mp hr0 with hr0 | hr0
      · subst hr0
        simp only [fastaGo, hnone]
      · cases hseq : dictGet seqs r.contig with
        | none => simp only [fastaGo, hseq]
        | some s =>
            simp only [fastaGo, hseq]
            exact ih _ ⟨r0, hr0, hnone⟩

theorem fastaGo_mono {β : Type} (seqs : List (String × β)) (cap : List Int)
    (t : List Row) : ∀ d out, fastaGo seqs cap t d = some out →
    ∀ (key : Option Int) (x : β), x ∈ dictGetD d key [] → x ∈ dictGetD out key [] := by
  induction t with
  | nil =>
      intro d out h key x hx
      simp only [fastaGo, Option.some_inj] at h
      exact h ▸ hx
  | cons r t ih =>
      intro d out h key x hx
      cases hseq : dictGet seqs r.contig with
      | none => simp only [fastaGo, hseq] at h; exact absurd h (by simp)
      | some s =>
          simp only [fastaGo, hseq] at h
          refine ih _ out h key x ?_
          set rkey : Option Int :=
            if r.db_cluster ∈ cap then some r.db_cluster else none with hrkey
          by_cases hkey : rkey = key
          · subst hkey
            rw [dictGetD_dictSet_self]
            exact List.mem_append_left _ hx
          · rw [dictGetD_dictSet_ne _ _ _ _ _ hkey]
            exact hx

theorem fastaGo_some {β : Type} (seqs : List (String × β)) (cap : List Int)
    (t : List Row) : ∀ d, (∀ r ∈ t, (dictGet seqs r.contig).isSome) →
    ∃ out, fastaGo seqs cap t d = some out ∧
      ∀ r ∈ t, ∀ s, dictGet seqs r.contig = some s →
        s ∈ dictGetD out (if r.db_cluster ∈ cap then some r.db_cluster else none) [] := by
  induction t with
  | nil =>
      intro d _
      exact ⟨d, rfl, by simp⟩
  | cons r t ih =>
      intro d hall
      have hr : (dictGet seqs r.contig).isSome := hall r (by simp)
      obtain ⟨s, hs⟩ := Option.isSome_iff_exists.mp hr
      set rkey : Option Int :=
        if r.db_cluster ∈ cap then some r.db_cluster else none with hrkey
      set d1 := dictSet d rkey (dictGetD d rkey [] ++ [s]) with hd1
      obtain ⟨out, hout, hplace⟩ := ih d1 (fun r0 hr0 => hall r0 (List.mem_cons_of_mem r hr0))
      refine ⟨out, ?_, ?_⟩
      · simp only [fastaGo, hs]
        exact hout
      · intro r0 hr0 s0 hs0
        rcases List.mem_cons.mp hr0 with hr0 | hr0
        · subst hr0
          rw [hs] at hs0
          have hs0 : s = s0 := by injection hs0
          subst hs0
          refine fastaGo_mono seqs cap t d1 out hout rkey s ?_
          rw [hd1, dictGetD_dictSet_self]
          exact List.mem_append_right _ (by simp)
        · exact hplace r0 hr0 s0 hs0

/-- C8: when a FASTA file is supplied, the output step hard-fails whenever
some contig of the assignment has no parsed sequence; when every contig has
one, it succeeds and every row's record is placed in its complete-and-pure
cluster's bucket or in the single aggregate unclustered bucket. -/
theorem fasta_output_spec {β : Type} (t : List Row) (seqs : List (String × β))
    (cap : List Int) :
    ((∃ r ∈ t, dictGet seqs r.contig = none) → fastaOutput t seqs cap = none) ∧
    ((∀ r ∈ t, (dictGet seqs r.contig).isSome) →
      ∃ out, fastaOutput t seqs cap = some out ∧
        ∀ r ∈ t, ∀ s, dictGet seqs r.contig = some s →
          s ∈ dictGetD out (if r.db_cluster ∈ cap then some r.db_cluster else none) []) := by
  constructor
  · intro h
    exact fastaGo_none seqs cap t _ h
  · intro h
    exact fastaGo_some seqs cap t _ h

/-- The sequence table used by the C8 witness (all contigs present). -/
def sampleSeqs : List (String × String) :=
  [("C1", "ACGT"), ("C2", "GGCC"), ("C3", "ATAT"), ("C4", "TTAA"), ("C5", "CGCG")]

/-- A sequence table missing contig C3, for the failure half of C8. -/
def sampleSeqsMissing : List (String × String) :=
  [("C1", "ACGT"), ("C2", "GGCC"), ("C4", "TTAA"), ("C5", "CGCG")]

/-- Witness for C8: success on a complete sequence table, hard failure when
one contig of the assignment is missing. -/
theorem fasta_output_spec_witness :
    (∃ out, fastaOutput sampleRows sampleSeqs [1] = some out ∧
      ∀ r ∈ sampleRows, ∀ s, dictGet sampleSeqs r.contig = some s →
        s ∈ dictGetD out (if r.db_cluster ∈ [1] then some r.db_cluster else none) []) ∧
    fastaOutput sampleRows sampleSeqsMissing [1] = none :=
  ⟨(fasta_output_spec sampleRows sampleSeqs [1]).2 (by decide),
   (fasta_output_spec sampleRows sampleSeqsMissing [1]).1 (by decide)⟩

-- The partitioner: classification and the two-table split.

theorem markerStep_nodup (hmm : HmmDict) (mt : List (Int × List (String × Nat))) (r : Row)
    (h : (dictKeys mt).Nodup) : (dictKeys (markerStep hmm mt r)).Nodup := by
  have h1 : (dictKeys (if dictContains mt r.db_cluster then mt
      else dictSet mt r.db_cluster [])).Nodup := by
    by_cases hc : dictContains mt r.db_cluster
    · rwa [if_pos hc]
    · rw [if_neg hc]; exact dictKeys_nodup_dictSet _ _ _ h
  cases hpf : dictGet hmm r.contig with
  | none => simp only [markerStep, hpf]; exact h1
  | some pf =>
      simp only [markerStep, hpf]
      exact dictKeys_nodup_dictSet _ _ _ h1

theorem buildMarkerTotals_nodup (t : List Row) (hmm : HmmDict) :
    (dictKeys (buildMarkerTotals t hmm)).Nodup := by
  rw [buildMarkerTotals]
  have : ∀ acc : List (Int × List (String × Nat)), (dictKeys acc).Nodup →
      (dictKeys (t.foldl (markerStep hmm) acc)).Nodup := by
    induction t with
    | nil => intro acc h; simpa
    | cons r t ih =>
        intro acc h
        exact ih _ (markerStep_nodup hmm acc r h)
  exact this [] (by simp [dictKeys])

theorem getClusterInfo_keys (t : List Row) (hmm : HmmDict) (dom : String) :
    dictKeys (getClusterInfo t hmm dom) = dictKeys (buildMarkerTotals t hmm) := by
  rw [getClusterInfo, dictKeys, dictKeys, List.map_map]
  rfl

theorem classifyClusters_eq (info : List (Int × ℚ × ℚ)) (ccut pcut : ℚ) :
    classifyClusters info ccut pcut =
      ((info.filter (fun c => decide (ccut < c.2.1 ∧ pcut < c.2.2))).map Prod.fst,
       (info.filter (fun c => !decide (ccut < c.2.1 ∧ pcut < c.2.2))).map Prod.fst) := by
  rw [classifyClusters]
  have : ∀ (a b : List Int),
      info.foldl (fun acc c =>
        if ccut < c.2.1 ∧ pcut < c.2.2 then (acc.1 ++ [c.1], acc.2)
        else (acc.1, acc.2 ++ [c.1])) (a, b) =
      (a ++ (info.filter (fun c => decide (ccut < c.2.1 ∧ pcut < c.2.2))).map Prod.fst,
       b ++ (info.filter (fun c => !decide (ccut < c.2.1 ∧ pcut < c.2.2))).map Prod.fst) := by
    induction info with
    | nil => intro a b; simp
    | cons p info ih =>
        intro a b
        by_cases hp : ccut < p.2.1 ∧ pcut < p.2.2
        · simp only [List.foldl_cons, if_pos hp, ih, List.filter_cons]
          rw [if_pos (by rw [decide_eq_true_eq]; exact hp),
            if_neg (by rw [Bool.not_eq_true', decide_eq_false_iff_not]; exact not_not_intro hp)]
          simp
        · simp only [List.foldl_cons, if_neg hp, ih, List.filter_cons]
          rw [if_neg (by rw [decide_eq_true_eq]; exact hp),
            if_pos (by rw [Bool.not_eq_true', decide_eq_false_iff_not]; exact hp)]
          simp
  rw [this]
  simp

theorem mem_removeClusters (cs : List Int) : ∀ (t : List Row) (r : Row),
    r ∈ removeClusters t cs ↔ r ∈ t ∧ r.db_cluster ∉ cs := by
  induction cs with
  | nil => intro t r; simp [removeClusters]
  | cons c cs ih =>
      intro t r
      show r ∈ removeClusters (t.filter (fun s => s.db_cluster ≠ c)) cs ↔ _
      rw [ih]
      rw [List.mem_filter]
      simp [List.mem_cons, not_or]
      tauto

/-- C5: a cluster label is classified complete_and_pure exactly when its
completeness and purity strictly exceed the cutoffs (the noise label gets
no special treatment), and every row of the selected assignment lands in
exactly one of the clustered table (`removeClusters` by the other labels)
and the nonclustered table (`removeClusters` by the passing labels). -/
theorem partition_spec (t : List Row) (hmm : HmmDict) (dom : String) (ccut pcut : ℚ) :
    (∀ p ∈ getClusterInfo t hmm dom,
      (p.1 ∈ (classifyClusters (getClusterInfo t hmm dom) ccut pcut).1 ↔
        (ccut < p.2.1 ∧ pcut < p.2.2)) ∧
      (p.1 ∈ (classifyClusters (getClusterInfo t hmm dom) ccut pcut).2 ↔
        ¬(ccut < p.2.1 ∧ pcut < p.2.2))) ∧
    (∀ r ∈ t,
      (r ∈ removeClusters t (classifyClusters (getClusterInfo t hmm dom) ccut pcut).2 ∧
       r ∉ removeClusters t (classifyClusters (getClusterInfo t hmm dom) ccut pcut).1) ∨
      (r ∈ removeClusters t (classifyClusters (getClusterInfo t hmm dom) ccut pcut).1 ∧
       r ∉ removeClusters t (classifyClusters (getClusterInfo t hmm dom) ccut pcut).2)) := by
  classical
  set info := getClusterInfo t hmm dom with hinfo
  have hnodup : (dictKeys info).Nodup := by
    rw [hinfo, getClusterInfo_keys]
    exact buildMarkerTotals_nodup t hmm
  have hinj := List.inj_on_of_nodup_map (f := Prod.fst) hnodup
  have hmem_cap : ∀ c : Int, c ∈ (classifyClusters info ccut pcut).1 ↔
      ∃ p0 ∈ info, (ccut < p0.2.1 ∧ pcut < p0.2.2) ∧ p0.1 = c := by
    intro c
    rw [classifyClusters_eq]
    simp only [List.mem_map, List.mem_filter, decide_eq_true_eq]
    constructor
    · rintro ⟨p0, ⟨h1, h2⟩, h3⟩; exact ⟨p0, h1, h2, h3⟩
    · rintro ⟨p0, h1, h2, h3⟩; exact ⟨p0, ⟨h1, h2⟩, h3⟩
  have hmem_oth : ∀ c : Int, c ∈ (classifyClusters info ccut pcut).2 ↔
      ∃ p0 ∈ info, ¬(ccut < p0.2.1 ∧ pcut < p0.2.2) ∧ p0.1 = c := by
    intro c
    rw [classifyClusters_eq]
    simp only [List.mem_map, List.mem_filter, Bool.not_eq_true', decide_eq_false_iff_not]
    constructor
    · rintro ⟨p0, ⟨h1, h2⟩, h3⟩; exact ⟨p0, h1, h2, h3⟩
    · rintro ⟨p0, h1, h2, h3⟩; exact ⟨p0, ⟨h1, h2⟩, h3⟩
  have hclass : ∀ p ∈ info,
      (p.1 ∈ (classifyClusters info ccut pcut).1 ↔ (ccut < p.2.1 ∧ pcut < p.2.2)) ∧
      (p.1 ∈ (classifyClusters info ccut pcut).2 ↔ ¬(ccut < p.2.1 ∧ pcut < p.2.2)) := by
    intro p hp
    constructor
    · rw [hmem_cap]
      constructor
      · rintro ⟨p0, hp0, hpass, hfst⟩
        have heq : p0 = p := hinj hp0 hp hfst
        subst heq; exact hpass
      · intro hpass; exact ⟨p, hp, hpass, rfl⟩
    · rw [hmem_oth]
      constructor
      · rintro ⟨p0, hp0, hpass, hfst⟩
        have heq : p0 = p := hinj hp0 hp hfst
        subst heq; exact hpass
      · intro hpass; exact ⟨p, hp, hpass, rfl⟩
  refine ⟨hclass, ?_⟩
  intro r hr
  have hkey : r.db_cluster ∈ dictKeys info := by
    rw [mem_dictKeys_iff_isSome, hinfo, getClusterInfo,
      dictGet_map_value (fun ms => scoreMarkers ms dom), buildMarkerTotals,
      foldl_markerStep_get hmm t [] r.db_cluster
        (Or.inr (List.mem_map_of_mem Row.db_cluster hr))]
    rfl
  obtain ⟨p, hp, hfst⟩ := List.mem_map.mp hkey
  by_cases hpass : ccut < p.2.1 ∧ pcut < p.2.2
  · left
    constructor
    · rw [mem_removeClusters]
      refine ⟨hr, fun hmem => ?_⟩
      rw [← hfst] at hmem
      exact ((hclass p hp).2.mp hmem) hpass
    · rw [mem_removeClusters]
      intro hmem
      apply hmem.2
      rw [← hfst]
      exact (hclass p hp).1.mpr hpass
  · right
    constructor
    · rw [mem_removeClusters]
      refine ⟨hr, fun hmem => ?_⟩
      rw [← hfst] at hmem
      exact hpass ((hclass p hp).1.mp hmem)
    · rw [mem_removeClusters]
      intro hmem
      apply hmem.2
      rw [← hfst]
      exact (hclass p hp).2.mpr hpass

/-- Witness for C5: the first row of `sampleRows` lands in exactly one of
the two output tables. -/
theorem partition_spec_witness :
    ((⟨"C1", 1, 500, 1/2, 2⟩ : Row) ∈ removeClusters sampleRows
        (classifyClusters (getClusterInfo sampleRows sampleHmm "bacteria") 90 90).2 ∧
     (⟨"C1", 1, 500, 1/2, 2⟩ : Row) ∉ removeClusters sampleRows
        (classifyClusters (getClusterInfo sampleRows sampleHmm "bacteria") 90 90).1) ∨
    ((⟨"C1", 1, 500, 1/2, 2⟩ : Row) ∈ removeClusters sampleRows
        (classifyClusters (getClusterInfo sampleRows sampleHmm "bacteria") 90 90).1 ∧
     (⟨"C1", 1, 500, 1/2, 2⟩ : Row) ∉ removeClusters sampleRows
        (classifyClusters (getClusterInfo sampleRows sampleHmm "bacteria") 90 90).2) :=
  (partition_spec sampleRows sampleHmm "bacteria" 90 90).2 _ (List.mem_cons_self _ _)

-- The parameter selector: head of the stable descending sort.

theorem head?_insertDescBy {α : Type} (key : α → Nat) (a : α) (s : List α) :
    (insertDescBy key a s).head? = some (match s.head? with
      | none => a
      | some b => if key a < key b then b else a) := by
  cases s with
  | nil => rfl
  | cons b rest =>
      by_cases h : key a < key b
      · simp [insertDescBy, h]
      · simp [insertDescBy, h]

theorem countIf_foldl (P : Int × ℚ × ℚ → Prop) [DecidablePred P]
    (info : List (Int × ℚ × ℚ)) :
    ∀ init : Nat, info.foldl (fun acc c => if P c then acc + 1 else acc) init =
      init + (info.filter (fun c => decide (P c))).length := by
  induction info with
  | nil => intro init; simp
  | cons p info ih =>
      intro init
      rw [List.foldl_cons, List.filter_cons]
      by_cases hp : P p
      · rw [if_pos hp, if_pos (decide_eq_true hp), ih, List.length_cons]
        omega
      · rw [if_neg hp, if_neg (by rw [decide_eq_true_eq]; exact hp), ih]

theorem numberCAP_eq_filter (info : List (Int × ℚ × ℚ)) (ccut pcut : ℚ) :
    numberCAP info ccut pcut =
      (info.filter (fun c => decide (ccut < c.2.1 ∧ pcut < c.2.2))).length := by
  rw [numberCAP, countIf_foldl (fun c => ccut < c.2.1 ∧ pcut < c.2.2) info 0]
  omega

theorem sortedDescBy_head {α : Type} (key : α → Nat) : ∀ l : List α, l ≠ [] →
    ∃ h pre post, (sortedDescBy key l).head? = some h ∧ l = pre ++ h :: post ∧
      (∀ x ∈ pre, key x < key h) ∧ (∀ x ∈ l, key x ≤ key h) := by
  intro l
  induction l with
  | nil => intro h; cases h rfl
  | cons a l ih =>
      intro _
      rcases eq_or_ne l [] with hl | hl
      · subst hl
        exact ⟨a, [], [], rfl, rfl, by simp, by simp⟩
      · obtain ⟨h0, pre, post, hhead, hdecomp, hpre, hmax⟩ := ih hl
        have hstep : sortedDescBy key (a :: l) = insertDescBy key a (sortedDescBy key l) :=
          rfl
        by_cases hlt : key a < key h0
        · refine ⟨h0, a :: pre, post, ?_, ?_, ?_, ?_⟩
          · rw [hstep, head?_insertDescBy, hhead]
            simp [hlt]
          · rw [hdecomp]; rfl
          · intro x hx
            rcases List.mem_cons.mp hx with hx | hx
            · subst hx; exact hlt
            · exact hpre x hx
          · intro x hx
            rcases List.mem_cons.mp hx with hx | hx
            · subst hx; exact le_of_lt hlt
            · exact hmax x hx
        · refine ⟨a, [], l, ?_, rfl, by simp, ?_⟩
          · rw [hstep, head?_insertDescBy, hhead]
            simp [hlt]
          · intro x hx
            rcases List.mem_cons.mp hx with hx | hx
            · subst hx; exact le_refl _
            · exact le_trans (hmax x hx) (Nat.le_of_not_lt hlt)

/-- C3: every entry of the per-eps table counts the clusters whose
completeness and purity strictly exceed the cutoffs, and the selected eps
attains the maximum count; among tied eps values the smallest is chosen
(eps keys are strictly increasing in sweep order and the sort is stable). -/
theorem bestEps_spec (tables : List (ℚ × List Row)) (hmm : HmmDict) (dom : String)
    (ccut pcut : ℚ) (hne : tables ≠ [])
    (hinc : (tables.map Prod.fst).Pairwise (· < ·)) :
    (∀ p ∈ capCounts tables hmm dom ccut pcut, ∃ tb, (p.1, tb) ∈ tables ∧
      p.2 = ((getClusterInfo tb hmm dom).filter
        (fun c => decide (ccut < c.2.1 ∧ pcut < c.2.2))).length) ∧
    ∃ e n, bestEps (capCounts tables hmm dom ccut pcut) = some e ∧
      (e, n) ∈ capCounts tables hmm dom ccut pcut ∧
      (∀ p ∈ capCounts tables hmm dom ccut pcut, p.2 ≤ n) ∧
      (∀ p ∈ capCounts tables hmm dom ccut pcut, p.2 = n → e ≤ p.1) := by
  classical
  set counts := capCounts tables hmm dom ccut pcut with hcounts
  constructor
  · intro p hp
    rw [hcounts, capCounts] at hp
    obtain ⟨q, hq, hpq⟩ := List.mem_map.mp hp
    refine ⟨q.2, ?_, ?_⟩
    · rw [← hpq]; exact hq
    · rw [← hpq]
      exact numberCAP_eq_filter _ ccut pcut
  · have hcne : counts ≠ [] := by
      rw [hcounts, capCounts]
      intro h
      exact hne (List.map_eq_nil_iff.mp h)
    obtain ⟨h0, pre, post, hhead, hdecomp, hpre, hmax⟩ :=
      sortedDescBy_head Prod.snd counts hcne
    have hbest : bestEps counts = some h0.1 := by
      rw [bestEps]
      cases hs : sortedDescBy Prod.snd counts with
      | nil => rw [hs] at hhead; simp at hhead
      | cons p rest =>
          rw [hs] at hhead
          simp at hhead
          rw [hhead]
    have hpair : counts.Pairwise (fun x y : ℚ × Nat => x.1 < y.1) := by
      have : (counts.map Prod.fst).Pairwise (· < ·) := by
        rw [hcounts, capCounts, List.map_map]
        exact hinc
      exact (List.pairwise_map).mp this
    refine ⟨h0.1, h0.2, hbest, ?_, ?_, ?_⟩
    · rw [hdecomp]
      simp
    · intro p hp
      exact hmax p hp
    · intro p hp hptie
      rw [hdecomp] at hp
      rcases List.mem_append.mp hp with hp | hp
      · exfalso
        have := hpre p hp
        omega
      · rcases List.mem_cons.mp hp with hp | hp
        · subst hp; exact le_refl _
        · rw [hdecomp] at hpair
          have hsuffix := (List.pairwise_append.mp hpair).2.1
          rw [List.pairwise_cons] at hsuffix
          exact le_of_lt (hsuffix.1 p hp)

/-- Witness for C3 on two tables with strictly increasing eps keys. -/
theorem bestEps_spec_witness :
    (∀ p ∈ capCounts [((1 : ℚ), sampleRows), ((2 : ℚ), [])] sampleHmm "bacteria" 90 90,
      ∃ tb, (p.1, tb) ∈ [((1 : ℚ), sampleRows), ((2 : ℚ), [])] ∧
      p.2 = ((getClusterInfo tb sampleHmm "bacteria").filter
        (fun c => decide ((90 : ℚ) < c.2.1 ∧ (90 : ℚ) < c.2.2))).length) ∧
    ∃ e n, bestEps (capCounts [((1 : ℚ), sampleRows), ((2 : ℚ), [])]
        sampleHmm "bacteria" 90 90) = some e ∧
      (e, n) ∈ capCounts [((1 : ℚ), sampleRows), ((2 : ℚ), [])] sampleHmm "bacteria" 90 90 ∧
      (∀ p ∈ capCounts [((1 : ℚ), sampleRows), ((2 : ℚ), [])] sampleHmm "bacteria" 90 90,
        p.2 ≤ n) ∧
      (∀ p ∈ capCounts [((1 : ℚ), sampleRows), ((2 : ℚ), [])] sampleHmm "bacteria" 90 90,
        p.2 = n → e ≤ p.1) :=
  bestEps_spec [((1 : ℚ), sampleRows), ((2 : ℚ), [])] sampleHmm "bacteria" 90 90
    (by decide) (by decide)

-- The eps sweep.

/-- The (eps, assignment) pairs the sweep produces starting at `eps` and
running `m + 1` iterations. -/
def sweepSeg (prim : ℚ → List Row) (eps : ℚ) (m : Nat) : List (ℚ × List Row) :=
  (List.range (m + 1)).map (fun j : Nat => (eps + (j : ℚ)/10, prim (eps + (j : ℚ)/10)))

theorem sweepSeg_zero (prim : ℚ → List Row) (eps : ℚ) :
    sweepSeg prim eps 0 = [(eps, prim eps)] := by
  rw [sweepSeg]
  have h0 : eps + ((0 : ℕ) : ℚ)/10 = eps := by push_cast; ring
  have hr : List.range 1 = [0] := rfl
  rw [hr, List.map_cons, List.map_nil, h0]

theorem sweepSeg_succ (prim : ℚ → List Row) (eps : ℚ) (m : Nat) :
    sweepSeg prim eps (m + 1) = (eps, prim eps) :: sweepSeg prim (eps + 1/10) m := by
  rw [sweepSeg, List.range_succ_eq_map, List.map_cons, List.map_map]
  have h0 : eps + ((0 : ℕ) : ℚ)/10 = eps := by push_cast; ring
  congr 1
  · rw [h0]
  · rw [sweepSeg]
    apply List.map_eq_map_iff.mpr
    intro j hj
    have harg : eps + ((Nat.succ j : ℕ) : ℚ)/10 = eps + 1/10 + (j : ℚ)/10 := by
      push_cast
      ring
    show (eps + ((Nat.succ j : ℕ) : ℚ)/10, prim (eps + ((Nat.succ j : ℕ) : ℚ)/10)) = _
    rw [harg]

theorem length_le_dictSet {κ β : Type} [DecidableEq κ] (d : List (κ × β)) (k : κ) (v : β) :
    d.length ≤ (dictSet d k v).length := by
  induction d with
  | nil => simp [dictSet]
  | cons p rest ih =>
      obtain ⟨k0, v0⟩ := p
      by_cases h : k0 = k
      · simp [dictSet, h]
      · simp only [dictSet, if_neg h, List.length_cons]
        omega

theorem countClusters_pos (t : List Row) (h : t ≠ []) : 0 < countClusters t := by
  obtain ⟨r, t2, rfl⟩ := List.exists_cons_of_ne_nil h
  rw [countClusters, List.foldl_cons]
  have hmono : ∀ (t3 : List Row) (acc : List (Int × Nat)),
      acc.length ≤ (t3.foldl countStep acc).length := by
    intro t3
    induction t3 with
    | nil => intro acc; simp
    | cons r3 t3 ih =>
        intro acc
        refine le_trans ?_ (ih (countStep acc r3))
        rw [countStep]
        by_cases hc : dictContains acc r3.db_cluster
        · rw [if_pos hc]; exact length_le_dictSet _ _ _
        · rw [if_neg hc]; exact length_le_dictSet _ _ _
  have h1 : 1 ≤ (countStep [] r).length := by
    simp [countStep, dictContains, dictGet, dictSet]
  exact lt_of_lt_of_le h1 (hmono t2 (countStep [] r))

theorem sweepGo_spec (prim : ℚ → List Row) : ∀ (fuel : Nat) (eps : ℚ)
    (acc tables : List (ℚ × List Row)),
    (∀ k ∈ dictKeys acc, k < eps) →
    sweepGo prim fuel eps acc = some tables →
    ∃ m : Nat, tables = acc ++ sweepSeg prim eps m ∧
      (∀ j : Nat, j < m → 1 < countClusters (prim (eps + (j : ℚ)/10))) ∧
      countClusters (prim (eps + (m : ℚ)/10)) ≤ 1 := by
  intro fuel
  induction fuel with
  | zero => intro eps acc tables _ h; exact absurd h (by simp [sweepGo])
  | succ fuel ih =>
      intro eps acc tables hkeys h
      have hnc : dictContains acc eps = false := by
        by_contra hc
        simp only [Bool.not_eq_false] at hc
        have : eps ∈ dictKeys acc := by
          rw [mem_dictKeys_iff_isSome]
          simpa [dictContains] using hc
        exact absurd (hkeys eps this) (lt_irrefl eps)
      have hset : dictSet acc eps (prim eps) = acc ++ [(eps, prim eps)] :=
        dictSet_eq_append acc eps (prim eps) hnc
      simp only [sweepGo] at h
      by_cases hcount : 1 < countClusters (prim eps)
      · rw [if_pos hcount, hset] at h
        have hkeys2 : ∀ k ∈ dictKeys (acc ++ [(eps, prim eps)]), k < eps + 1/10 := by
          intro k hk
          rw [dictKeys, List.map_append] at hk
          rcases List.mem_append.mp hk with hk | hk
          · exact lt_trans (hkeys k hk) (by linarith)
          · simp at hk
            subst hk
            linarith
        obtain ⟨m, hdecomp, hmid, hfin⟩ := ih (eps + 1/10) (acc ++ [(eps, prim eps)])
          tables hkeys2 h
        refine ⟨m + 1, ?_, ?_, ?_⟩
        · rw [hdecomp, sweepSeg_succ, List.append_assoc]
          rfl
        · intro j hj
          cases j with
          | zero =>
              have h0 : eps + ((0 : ℕ) : ℚ)/10 = eps := by push_cast; ring
              rw [h0]
              exact hcount
          | succ j =>
              have harg : eps + ((Nat.succ j : ℕ) : ℚ)/10 = eps + 1/10 + (j : ℚ)/10 := by
                push_cast; ring
              rw [harg]
              exact hmid j (by omega)
        · have harg : eps + ((m + 1 : ℕ) : ℚ)/10 = eps + 1/10 + (m : ℚ)/10 := by
            push_cast; ring
          rw [harg]
          exact hfin
      · rw [if_neg hcount, hset] at h
        have htab : tables = acc ++ [(eps, prim eps)] := by
          injection h.symm
        refine ⟨0, ?_, by omega, ?_⟩
        · rw [htab, sweepSeg_zero]
        · have h0 : eps + ((0 : ℕ) : ℚ)/10 = eps := by push_cast; ring
          rw [h0]
          omega

/-- C2 (amended): whenever the sweep terminates within its iteration bound,
it has invoked the primitive at 0.3, then increasing by 0.1 per step, kept
every assignment keyed by its radius, every non-final assignment has more
than one distinct label, the collection is non-empty, and the final
assignment has AT MOST one distinct cluster label — exactly one whenever
the final assignment contains at least one point. -/
theorem sweep_spec (prim : ℚ → List Row) (fuel : Nat) (tables : List (ℚ × List Row))
    (h : sweep prim fuel = some tables) :
    tables ≠ [] ∧
    (∀ (i : Nat) (hi : i < tables.length),
      tables[i] = (3/10 + (i : ℚ)/10, prim (3/10 + (i : ℚ)/10))) ∧
    (∀ (i : Nat) (hi : i < tables.length), i + 1 < tables.length →
      1 < countClusters (tables[i]).2) ∧
    (∃ last, tables.getLast? = some last ∧ countClusters last.2 ≤ 1 ∧
      (last.2 ≠ [] → countClusters last.2 = 1)) := by
  obtain ⟨m, hdecomp, hmid, hfin⟩ :=
    sweepGo_spec prim fuel (3/10) [] tables (by simp [dictKeys]) h
  rw [List.nil_append] at hdecomp
  have hlen : tables.length = m + 1 := by
    rw [hdecomp, sweepSeg, List.length_map, List.length_range]
  have hget : ∀ (i : Nat) (hi : i < tables.length),
      tables[i] = (3/10 + (i : ℚ)/10, prim (3/10 + (i : ℚ)/10)) := by
    intro i hi
    have hi2 : i < m + 1 := by omega
    rw [List.getElem_of_eq hdecomp hi]
    simp only [sweepSeg, List.getElem_map, List.getElem_range]
  refine ⟨?_, hget, ?_, ?_⟩
  · intro hempty
    rw [hempty] at hlen
    simp at hlen
  · intro i hi hi2
    rw [hget i hi]
    exact hmid i (by omega)
  · have hlast : tables.getLast? = some (3/10 + (m : ℚ)/10, prim (3/10 + (m : ℚ)/10)) := by
      rw [List.getLast?_eq_getElem?, hlen]
      have hm : m + 1 - 1 = m := by omega
      rw [hm]
      rw [List.getElem?_eq_getElem (by omega)]
      rw [hget m (by omega)]
    refine ⟨_, hlast, hfin, ?_⟩
    intro hne
    have hpos : 0 < countClusters (prim (3/10 + (m : ℚ)/10)) := countClusters_pos _ hne
    show countClusters (prim (3/10 + (m : ℚ)/10)) = 1
    omega

/-- Counterexample to C2 as stated: with an empty coordinate set the
primitive returns the empty assignment, the sweep stops after one
iteration, and the final (and only) assignment has zero distinct cluster
labels, not exactly one. -/
theorem sweep_final_label_counterexample :
    sweep (fun _ => []) 1 = some [((3 : ℚ)/10, [])] ∧
    countClusters ([] : List Row) = 0 ∧ countClusters ([] : List Row) ≠ 1 :=
  ⟨rfl, rfl, by decide⟩

/-- One-row table used by the C2 witness; one distinct label. -/
def oneRowTable : List Row := [⟨"C1", 1, 100, 1, 1⟩]

/-- Witness for C2 (amended) on a primitive that immediately yields a
single-label assignment. -/
theorem sweep_spec_witness :
    [((3 : ℚ)/10, oneRowTable)] ≠ [] ∧
    (∀ (i : Nat) (hi : i < [((3 : ℚ)/10, oneRowTable)].length),
      [((3 : ℚ)/10, oneRowTable)][i] =
        (3/10 + (i : ℚ)/10, (fun _ : ℚ => oneRowTable) (3/10 + (i : ℚ)/10))) ∧
    (∀ (i : Nat) (hi : i < [((3 : ℚ)/10, oneRowTable)].length),
      i + 1 < [((3 : ℚ)/10, oneRowTable)].length →
      1 < countClusters ([((3 : ℚ)/10, oneRowTable)][i]).2) ∧
    (∃ last, [((3 : ℚ)/10, oneRowTable)].getLast? = some last ∧
      countClusters last.2 ≤ 1 ∧ (last.2 ≠ [] → countClusters last.2 = 1)) :=
  sweep_spec (fun _ => oneRowTable) 1 [((3 : ℚ)/10, oneRowTable)] rfl

end Autometa
